import Mathlib

set_option linter.unusedVariables false

/-! Shallow embedding of the aidit local artifact cache
(`src/services/cache/image-cache.ts`) and of the editing-session history manager
(`src/stores/editor-store.ts`), together with theorems settling the documented
invariants and behaviours. Timestamps and byte sizes are JavaScript numbers
holding integral values and are embedded as `Int`; JavaScript `Record`s are
embedded as insertion-ordered association lists. -/

/-- `CacheEntry` from image-cache.ts: `{ uri, timestamp, size }`. -/
structure CacheEntry where
  uri : String
  timestamp : Int
  size : Int
deriving DecidableEq

/-- `CacheIndex`: `entries` is a JS `Record<string, CacheEntry>` (insertion
ordered, keys distinct in any state a `Record` can denote); `totalSize` is the
running byte total. -/
structure CacheIndex where
  entries : List (String × CacheEntry)
  totalSize : Int
deriving DecidableEq

def emptyIndex : CacheIndex := ⟨[], 0⟩

def MAX_CACHE_SIZE : Int := 100 * 1024 * 1024

def MAX_CACHE_AGE : Int := 7 * 24 * 60 * 60 * 1000

/-- `MAX_CACHE_SIZE * 0.8` of the source. The product `104857600 * 0.8` of IEEE
doubles is exactly the double `83886080.0`, so the JS comparison against it is
integer-exact and the embedding as an `Int` threshold is faithful. -/
def EVICT_TARGET : Int := (MAX_CACHE_SIZE * 4) / 5

/-- Record read `this.index.entries[key]` (first binding; with the distinct keys
of a `Record`, the only one). -/
def lookupEntry : List (String × CacheEntry) → String → Option CacheEntry
  | [], _ => none
  | (k, e) :: rest, key => if k == key then some e else lookupEntry rest key

/-- Record assignment `this.index.entries[key] = e`: an existing binding is
replaced in place (JS keeps the original property position), otherwise the
binding is appended. -/
def setEntry : List (String × CacheEntry) → String → CacheEntry → List (String × CacheEntry)
  | [], key, e => [(key, e)]
  | (k, e') :: rest, key, e =>
    if k == key then (key, e) :: rest else (k, e') :: setEntry rest key e

/-- Record deletion `delete this.index.entries[key]` (the pointwise unfolding
of `filter (fun p => p.1 != key)`). -/
def removeKey : List (String × CacheEntry) → String → List (String × CacheEntry)
  | [], _ => []
  | (k, e) :: rest, key =>
    if k == key then removeKey rest key else (k, e) :: removeKey rest key

/-- Sum of the `size` fields of a list of bindings. -/
def sizesSum (l : List (String × CacheEntry)) : Int :=
  (l.map (fun p => p.2.size)).sum

/-- The sum-consistency invariant of §3/§8 of the design:
`totalSize` equals the sum of the entries' sizes. -/
abbrev sumOk (s : CacheIndex) : Prop := s.totalSize = sizesSum s.entries

/-- Keys of a JS `Record` are pairwise distinct. -/
abbrev keysNodup (l : List (String × CacheEntry)) : Prop := (l.map Prod.fst).Nodup

/-- Both structural facts every state denotable by the source's
`CacheIndex` record satisfies when produced by the store itself. -/
abbrev cacheInv (s : CacheIndex) : Prop := sumOk s ∧ keysNodup s.entries

/-- Stable insertion of one binding into a timestamp-ascending list. -/
def insertByTs (p : String × CacheEntry) :
    List (String × CacheEntry) → List (String × CacheEntry)
  | [] => [p]
  | q :: rest =>
    if p.2.timestamp ≤ q.2.timestamp then p :: q :: rest else q :: insertByTs p rest

/-- `Object.entries(this.index.entries).sort(([,a],[,b]) => a.timestamp - b.timestamp)`:
a stable ascending sort by `timestamp` (JS `Array.prototype.sort` is stable, so
ties keep first-encountered order, which this insertion sort reproduces). -/
def sortByTs (l : List (String × CacheEntry)) : List (String × CacheEntry) :=
  l.foldr insertByTs []

/-- The `for`-loop of `evictIfNeeded`: walk the timestamp-sorted bindings,
stopping as soon as `totalSize <= MAX_CACHE_SIZE * 0.8`, otherwise removing the
binding and subtracting its size. -/
def evictLoop : List (String × CacheEntry) → CacheIndex → CacheIndex
  | [], s => s
  | (k, e) :: rest, s =>
    if s.totalSize ≤ EVICT_TARGET then s
    else evictLoop rest ⟨removeKey s.entries k, s.totalSize - e.size⟩

/-- `evictIfNeeded()`. The second component counts the `saveIndex()` calls the
operation performs. -/
def evictIfNeeded (s : CacheIndex) : CacheIndex × Nat :=
  if s.totalSize ≤ MAX_CACHE_SIZE then (s, 0)
  else (evictLoop (sortByTs s.entries) s, 1)

/-- `cleanup()`: drop every entry with `now - entry.timestamp > MAX_CACHE_AGE`,
subtracting the dropped sizes from `totalSize`. -/
def cleanupExpired (now : Int) (s : CacheIndex) : CacheIndex :=
  ⟨s.entries.filter (fun p => !(decide (MAX_CACHE_AGE < now - p.2.timestamp))),
   s.totalSize - sizesSum (s.entries.filter (fun p => decide (MAX_CACHE_AGE < now - p.2.timestamp)))⟩

/-- Persisted index-file content as `initialize()` can find it: `none` = the
file is absent; `some none` = present but `JSON.parse` throws; `some (some idx)`
= it parses to `idx`. -/
abbrev IndexFile := Option (Option CacheIndex)

/-- The `try` block of `initialize()` on its first effective call (the in-memory
index starts out empty): load the persisted index when the file exists — a parse
failure throws — then run `cleanup()`. -/
def initTry (content : IndexFile) (now : Int) : Except String CacheIndex :=
  match content with
  | none => .ok (cleanupExpired now emptyIndex)
  | some none => .error "JSON.parse"
  | some (some idx) => .ok (cleanupExpired now idx)

/-- `initialize()`: the surrounding `catch` logs, resets the index to empty and
swallows the error, so the caller never sees a failure. -/
def initStore (content : IndexFile) (now : Int) : Except String CacheIndex :=
  match initTry content now with
  | .ok s => .ok s
  | .error _ => .ok emptyIndex

/-- The index `initialize()` leaves in memory. -/
def initResult (content : IndexFile) (now : Int) : CacheIndex :=
  match initStore content now with
  | .ok s => s
  | .error _ => emptyIndex

/-- Outcome of `copyAsync` + `getInfoAsync` inside `cacheImage`: `none` = the
copy threw; `some info` = the copy succeeded and `info` is the measured size
(`none` when `getInfoAsync` reports no file, in which case the code records
size 0). -/
abbrev CopyResult := Option (Option Int)

/-- `cacheImage(sourceUri, operation?)`. The generated key (source-name fragment
+ operation tag + `Date.now()`) and the destination uri derived from it are
environment-determined inputs. Returns the call's result together with the
index state after the call (unchanged when the copy throws — the entry and the
size bump are only recorded after a successful copy). -/
def cacheImage (s : CacheIndex) (key destUri : String) (copyResult : CopyResult)
    (now : Int) : Except String String × CacheIndex :=
  match copyResult with
  | none => (.error "Failed to cache image", s)
  | some info =>
    let size := info.getD 0
    let s1 : CacheIndex := ⟨setEntry s.entries key ⟨destUri, now, size⟩, s.totalSize + size⟩
    (.ok destUri, (evictIfNeeded s1).1)

/-- `getCached(key)`: `fileExists` is the `getInfoAsync(entry.uri).exists`
answer of the environment. Returns (result, index after the call, whether
`saveIndex()` ran). -/
def getCached (s : CacheIndex) (key : String) (fileExists : Bool) (now : Int) :
    Option String × CacheIndex × Bool :=
  match lookupEntry s.entries key with
  | none => (none, s, false)
  | some e =>
    if fileExists then
      (some e.uri, ⟨setEntry s.entries key ⟨e.uri, now, e.size⟩, s.totalSize⟩, true)
    else
      (none, ⟨removeKey s.entries key, s.totalSize - e.size⟩, true)

/-- `delete(uri)`: delete the physical file (`idempotent: true` — absence is not
an error), then drop the first index binding whose `uri` matches, if any,
subtracting its size. The file system is embedded as the list of existing file
uris. -/
def deleteOp (s : CacheIndex) (fs : List String) (uri : String) :
    CacheIndex × List String :=
  let fs' := fs.filter (fun u => u != uri)
  match s.entries.find? (fun p => p.2.uri == uri) with
  | none => (s, fs')
  | some (k, e) => (⟨removeKey s.entries k, s.totalSize - e.size⟩, fs')

/-- `clearCache()`: the cache directory is deleted and recreated and the index
reset to empty. -/
def clearCache (_s : CacheIndex) : CacheIndex := emptyIndex

/-- `getStats()`. -/
def getStats (s : CacheIndex) : Nat × Int := (s.entries.length, s.totalSize)

/-- Artifact-store state: the `initialized` guard flag plus the in-memory index. -/
structure CacheState where
  initialized : Bool
  index : CacheIndex
deriving DecidableEq

def initialCacheState : CacheState := ⟨false, emptyIndex⟩

/-- The `await this.initialize()` call heading the public operations: a no-op
once `initialized` is set. -/
def ensureInit (s : CacheState) (content : IndexFile) (now : Int) : CacheState :=
  if s.initialized then s else ⟨true, initResult content now⟩

/-- One artifact-store operation together with its environment inputs. -/
inductive CacheOp where
  | initOp (content : IndexFile) (now : Int)
  | cacheOp (content : IndexFile) (key destUri : String) (copyResult : CopyResult) (now : Int)
  | getOp (content : IndexFile) (key : String) (fileExists : Bool) (now : Int)
  | delOp (uri : String)
  | clearOp
  | evictOp
  | cleanupOp (now : Int)
deriving DecidableEq

def runOp (s : CacheState) : CacheOp → CacheState
  | .initOp content now => ensureInit s content now
  | .cacheOp content key destUri copyResult now =>
    let s1 := ensureInit s content now
    ⟨s1.initialized, (cacheImage s1.index key destUri copyResult now).2⟩
  | .getOp content key fileExists now =>
    let s1 := ensureInit s content now
    ⟨s1.initialized, (getCached s1.index key fileExists now).2.1⟩
  | .delOp uri => ⟨s.initialized, (deleteOp s.index [] uri).1⟩
  | .clearOp => ⟨s.initialized, clearCache s.index⟩
  | .evictOp => ⟨s.initialized, (evictIfNeeded s.index).1⟩
  | .cleanupOp now => ⟨s.initialized, cleanupExpired now s.index⟩

def runOps (s : CacheState) (ops : List CacheOp) : CacheState := ops.foldl runOp s

/-- A persisted index file is well-formed when, if it parses at all, the parsed
index is sum-consistent and has distinct keys — which is what `saveIndex` always
writes. -/
def contentOk : IndexFile → Bool
  | some (some idx) => decide (sumOk idx) && decide (keysNodup idx.entries)
  | _ => true

/-- Side conditions of one step: any loaded file content is well-formed, and the
key a `cacheImage` call generates is not already bound (no key collision). -/
def goodOp (s : CacheState) : CacheOp → Bool
  | .initOp content _ => contentOk content
  | .cacheOp content key _ _ now =>
    contentOk content && (lookupEntry (ensureInit s content now).index.entries key).isNone
  | .getOp content _ _ _ => contentOk content
  | _ => true

def goodTrace : CacheState → List CacheOp → Bool
  | _, [] => true
  | s, op :: rest => goodOp s op && goodTrace (runOp s op) rest

/-- The `AITool` union type of editor-store.ts. -/
inductive AITool where
  | autoEnhance
  | backgroundRemoval
  | objectRemoval
  | tapEdit
  | portraitEnhance
  | meet
  | animate
  | smartCrop
deriving DecidableEq

/-- `ImageState`: one point of a session's timeline. -/
structure ImageState where
  uri : String
  timestamp : Int
  tool : Option AITool
deriving DecidableEq

/-- `EditSession` of editor-store.ts. `historyIndex` is a JS number and is
embedded as `Int` so that the lower cursor bound is a real statement. -/
structure EditSession where
  id : String
  originalUri : String
  currentUri : String
  history : List ImageState
  historyIndex : Int
  createdAt : Int
  updatedAt : Int
deriving DecidableEq

inductive SelectionType where
  | brush
  | lasso
  | tap
deriving DecidableEq

/-- `Selection`. The point coordinates are carried opaquely (no store operation
computes with them), embedded as integer pairs. -/
structure Selection where
  type : SelectionType
  points : List (Int × Int)
  maskUri : Option String
deriving DecidableEq

/-- The zustand store state of editor-store.ts (the data fields; the actions are
the functions below). -/
structure EditorState where
  currentSession : Option EditSession
  isProcessing : Bool
  processingMessage : String
  selectedTool : Option AITool
  selection : Option Selection
  showCompare : Bool
  showHistory : Bool
  recentEdits : List EditSession
deriving DecidableEq

/-- The store's initial state. -/
def initialEditorState : EditorState :=
  ⟨none, false, "", none, none, false, false, []⟩

/-- `Array.prototype.slice(0, e)`: a negative end counts from the end of the
array; the result is clamped to the array. -/
def jsSliceTo (l : List ImageState) (e : Int) : List ImageState :=
  if e < 0 then l.take ((l.length : Int) + e).toNat else l.take e.toNat

/-- JS array read `l[i]`: `undefined` (here `none`) outside the bounds. -/
def jsIndex (l : List ImageState) (i : Int) : Option ImageState :=
  if i < 0 then none else l.get? i.toNat

/-- `startSession(imageUri)`. -/
def startSession (s : EditorState) (imageUri : String) (now : Int) : EditorState :=
  { s with
    currentSession := some
      { id := "session_" ++ toString now
        originalUri := imageUri
        currentUri := imageUri
        history := [⟨imageUri, now, none⟩]
        historyIndex := 0
        createdAt := now
        updatedAt := now }
    selectedTool := none
    selection := none
    showCompare := false
    showHistory := false }

/-- `endSession()`. -/
def endSession (s : EditorState) : EditorState :=
  let s1 :=
    match s.currentSession with
    | some sess =>
      if 1 < sess.history.length then
        { s with recentEdits := (sess :: s.recentEdits).take 20 }
      else s
    | none => s
  { s1 with currentSession := none, selectedTool := none, selection := none }

/-- `applyEdit(newUri, tool)`: truncate the history after the cursor, append the
new state, move the cursor to the end. A no-op without an active session. -/
def applyEdit (s : EditorState) (newUri : String) (tool : AITool) (now : Int) :
    EditorState :=
  match s.currentSession with
  | none => s
  | some sess =>
    let newState : ImageState := ⟨newUri, now, some tool⟩
    let newHistory := jsSliceTo sess.history (sess.historyIndex + 1) ++ [newState]
    { s with
      currentSession := some
        { sess with
          currentUri := newUri
          history := newHistory
          historyIndex := (newHistory.length : Int) - 1
          updatedAt := now } }

/-- `undo()`: guarded no-op at the start; otherwise steps the cursor back and
reads `history[newIndex].uri` (an out-of-bounds read would be a TypeError in
the source, hence the `Except`). -/
def undo (s : EditorState) (now : Int) : Except String EditorState :=
  match s.currentSession with
  | none => .ok s
  | some sess =>
    if sess.historyIndex ≤ 0 then .ok s
    else
      match jsIndex sess.history (sess.historyIndex - 1) with
      | none => .error "TypeError"
      | some st =>
        .ok { s with
          currentSession := some
            { sess with
              currentUri := st.uri
              historyIndex := sess.historyIndex - 1
              updatedAt := now } }

/-- `redo()`: guarded no-op at the end of the history; otherwise steps the
cursor forward and reads `history[newIndex].uri`. -/
def redo (s : EditorState) (now : Int) : Except String EditorState :=
  match s.currentSession with
  | none => .ok s
  | some sess =>
    if (sess.history.length : Int) - 1 ≤ sess.historyIndex then .ok s
    else
      match jsIndex sess.history (sess.historyIndex + 1) with
      | none => .error "TypeError"
      | some st =>
        .ok { s with
          currentSession := some
            { sess with
              currentUri := st.uri
              historyIndex := sess.historyIndex + 1
              updatedAt := now } }

/-- `canUndo()`. -/
def canUndo (s : EditorState) : Bool :=
  match s.currentSession with
  | none => false
  | some sess => decide (0 < sess.historyIndex)

/-- `canRedo()`. -/
def canRedo (s : EditorState) : Bool :=
  match s.currentSession with
  | none => false
  | some sess => decide (sess.historyIndex < (sess.history.length : Int) - 1)

/-- One history-manager operation with its environment inputs. -/
inductive EditorOp where
  | start (uri : String) (now : Int)
  | endOp
  | apply (uri : String) (tool : AITool) (now : Int)
  | undoOp (now : Int)
  | redoOp (now : Int)
deriving DecidableEq

def runEditorOp (s : EditorState) : EditorOp → Except String EditorState
  | .start uri now => .ok (startSession s uri now)
  | .endOp => .ok (endSession s)
  | .apply uri tool now => .ok (applyEdit s uri tool now)
  | .undoOp now => undo s now
  | .redoOp now => redo s now

def runEditorOps (s : EditorState) : List EditorOp → Except String EditorState
  | [] => .ok s
  | op :: rest =>
    match runEditorOp s op with
    | .ok s' => runEditorOps s' rest
    | .error e => .error e

/-- The session well-formedness the history manager maintains: the cursor is in
bounds and `currentUri` is the uri of the state under the cursor. -/
def sessionInv (sess : EditSession) : Prop :=
  0 ≤ sess.historyIndex ∧ sess.historyIndex < (sess.history.length : Int) ∧
    ∃ st, jsIndex sess.history sess.historyIndex = some st ∧ sess.currentUri = st.uri

def editorInv (s : EditorState) : Prop :=
  ∀ sess, s.currentSession = some sess → sessionInv sess

lemma jsIndex_of_lt (l : List ImageState) (i : Int) (h0 : 0 ≤ i)
    (h1 : i < (l.length : Int)) : ∃ st, jsIndex l i = some st := by
  unfold jsIndex
  rw [if_neg (by omega)]
  cases hg : l.get? i.toNat with
  | none =>
    rw [List.get?_eq_none] at hg
    omega
  | some st => exact ⟨st, rfl⟩

lemma get?_append_last (l : List ImageState) (a : ImageState) :
    (l ++ [a]).get? l.length = some a := by
  rw [List.get?_append_right (Nat.le_refl _)]
  simp

lemma applyEdit_session (s : EditorState) (sess : EditSession) (uri : String)
    (tool : AITool) (now : Int) (hs : s.currentSession = some sess) :
    ∃ sess', (applyEdit s uri tool now).currentSession = some sess' ∧
      sess'.history = jsSliceTo sess.history (sess.historyIndex + 1) ++ [⟨uri, now, some tool⟩] ∧
      sess'.historyIndex = (sess'.history.length : Int) - 1 ∧
      sess'.currentUri = uri := by
  unfold applyEdit
  rw [hs]
  exact ⟨_, rfl, rfl, rfl, rfl⟩

lemma sessionInv_of_last (sess : EditSession)
    (hidx : sess.historyIndex = (sess.history.length : Int) - 1)
    (hne : sess.history ≠ [])
    (hcur : ∃ st, sess.history.get? (sess.history.length - 1) = some st ∧ sess.currentUri = st.uri) :
    sessionInv sess := by
  have hlen : 0 < sess.history.length := List.length_pos.mpr hne
  obtain ⟨st, hst, hu⟩ := hcur
  refine ⟨by omega, by omega, st, ?_, hu⟩
  unfold jsIndex
  rw [if_neg (by omega)]
  have : sess.historyIndex.toNat = sess.history.length - 1 := by omega
  rw [this]
  exact hst

lemma editorInv_step (s : EditorState) (op : EditorOp) (h : editorInv s) :
    ∃ s', runEditorOp s op = .ok s' ∧ editorInv s' := by
  cases op with
  | start uri now =>
    refine ⟨_, rfl, ?_⟩
    intro sess hsess
    simp only [runEditorOp, startSession] at hsess
    injection hsess with hsess
    subst hsess
    exact ⟨by simp, by simp, ⟨uri, now, none⟩, by simp [jsIndex], rfl⟩
  | endOp =>
    refine ⟨_, rfl, ?_⟩
    intro sess hsess
    simp only [endSession] at hsess
    exact Option.noConfusion hsess
  | apply uri tool now =>
    cases hs : s.currentSession with
    | none =>
      refine ⟨s, by simp [runEditorOp, applyEdit, hs], h⟩
    | some sess =>
      obtain ⟨sess', hsess', hhist, hidx, hcur⟩ := applyEdit_session s sess uri tool now hs
      refine ⟨_, rfl, ?_⟩
      intro sess'' hsess''
      rw [hsess'] at hsess''
      injection hsess'' with hsess''
      subst hsess''
      refine sessionInv_of_last sess' hidx (by simp [hhist]) ?_
      refine ⟨⟨uri, now, some tool⟩, ?_, hcur⟩
      rw [hhist]
      have hlen : (jsSliceTo sess.history (sess.historyIndex + 1) ++ [(⟨uri, now, some tool⟩ : ImageState)]).length
          = (jsSliceTo sess.history (sess.historyIndex + 1)).length + 1 := by simp
      rw [hlen, Nat.add_sub_cancel]
      exact get?_append_last _ _
  | undoOp now =>
    cases hs : s.currentSession with
    | none => exact ⟨s, by simp [runEditorOp, undo, hs], h⟩
    | some sess =>
      obtain ⟨h0, h1, st, hst, hcur⟩ := h sess hs
      by_cases hidx : sess.historyIndex ≤ 0
      · exact ⟨s, by simp [runEditorOp, undo, hs, hidx], h⟩
      · obtain ⟨st', hst'⟩ := jsIndex_of_lt sess.history (sess.historyIndex - 1)
          (by omega) (by omega)
        refine ⟨{ s with currentSession := some { sess with
            currentUri := st'.uri, historyIndex := sess.historyIndex - 1,
            updatedAt := now } }, ?_, ?_⟩
        · simp [runEditorOp, undo, hs, hidx, hst']
        · intro sess'' hsess''
          simp only at hsess''
          injection hsess'' with hsess''
          subst hsess''
          refine ⟨?_, ?_, st', hst', rfl⟩
          · show (0 : Int) ≤ sess.historyIndex - 1
            omega
          · show sess.historyIndex - 1 < (sess.history.length : Int)
            omega
  | redoOp now =>
    cases hs : s.currentSession with
    | none => exact ⟨s, by simp [runEditorOp, redo, hs], h⟩
    | some sess =>
      obtain ⟨h0, h1, st, hst, hcur⟩ := h sess hs
      by_cases hidx : (sess.history.length : Int) - 1 ≤ sess.historyIndex
      · exact ⟨s, by simp [runEditorOp, redo, hs, hidx], h⟩
      · obtain ⟨st', hst'⟩ := jsIndex_of_lt sess.history (sess.historyIndex + 1)
          (by omega) (by omega)
        refine ⟨{ s with currentSession := some { sess with
            currentUri := st'.uri, historyIndex := sess.historyIndex + 1,
            updatedAt := now } }, ?_, ?_⟩
        · simp [runEditorOp, redo, hs, hidx, hst']
        · intro sess'' hsess''
          simp only at hsess''
          injection hsess'' with hsess''
          subst hsess''
          refine ⟨?_, ?_, st', hst', rfl⟩
          · show (0 : Int) ≤ sess.historyIndex + 1
            omega
          · show sess.historyIndex + 1 < (sess.history.length : Int)
            omega

lemma editorInv_runOps (s : EditorState) (ops : List EditorOp) (h : editorInv s) :
    ∃ s', runEditorOps s ops = .ok s' ∧ editorInv s' := by
  induction ops generalizing s with
  | nil => exact ⟨s, rfl, h⟩
  | cons op rest ih =>
    obtain ⟨s1, h1, hinv1⟩ := editorInv_step s op h
    obtain ⟨s', h', hinv'⟩ := ih s1 hinv1
    exact ⟨s', by simp [runEditorOps, h1, h'], hinv'⟩

lemma editorInv_initial : editorInv initialEditorState := by
  intro sess h
  simp [initialEditorState] at h

/-- C2: for every session and every sequence of start/applyEdit/undo/redo (and
end) operations run from the store's initial state, the cursor satisfies
`0 <= historyIndex < length(history)` after each operation (every prefix of a
run is itself a run, so this covers each intermediate state). -/
theorem editor_cursor_bounds (ops : List EditorOp) (s' : EditorState)
    (sess : EditSession) (hrun : runEditorOps initialEditorState ops = .ok s')
    (hsess : s'.currentSession = some sess) :
    0 ≤ sess.historyIndex ∧ sess.historyIndex < (sess.history.length : Int) := by
  obtain ⟨s'', hrun', hinv⟩ := editorInv_runOps initialEditorState ops editorInv_initial
  rw [hrun] at hrun'
  injection hrun' with hrun'
  subst hrun'
  obtain ⟨h0, h1, _⟩ := hinv sess hsess
  exact ⟨h0, h1⟩

/-- Witness for C2 at the run `[start "a"]`. -/
theorem editor_cursor_bounds_witness :
    0 ≤ (⟨"session_0", "a", "a", [⟨"a", 0, none⟩], 0, 0, 0⟩ : EditSession).historyIndex ∧
      (⟨"session_0", "a", "a", [⟨"a", 0, none⟩], 0, 0, 0⟩ : EditSession).historyIndex <
        (((⟨"session_0", "a", "a", [⟨"a", 0, none⟩], 0, 0, 0⟩ : EditSession).history.length : Int)) :=
  editor_cursor_bounds [.start "a" 0]
    ⟨some ⟨"session_0", "a", "a", [⟨"a", 0, none⟩], 0, 0, 0⟩, false, "", none, none,
      false, false, []⟩
    ⟨"session_0", "a", "a", [⟨"a", 0, none⟩], 0, 0, 0⟩ rfl rfl

/-- C5: for every session and every sequence of start/applyEdit/undo/redo (and
end) operations, the stored `currentUri` equals `history[historyIndex].uri`
after each operation. -/
theorem editor_currentUri_sync (ops : List EditorOp) (s' : EditorState)
    (sess : EditSession) (hrun : runEditorOps initialEditorState ops = .ok s')
    (hsess : s'.currentSession = some sess) :
    ∃ st, jsIndex sess.history sess.historyIndex = some st ∧ sess.currentUri = st.uri := by
  obtain ⟨s'', hrun', hinv⟩ := editorInv_runOps initialEditorState ops editorInv_initial
  rw [hrun] at hrun'
  injection hrun' with hrun'
  subst hrun'
  exact (hinv sess hsess).2.2

/-- Witness for C5 at the run `[start "a"]`. -/
theorem editor_currentUri_sync_witness :
    ∃ st, jsIndex (⟨"session_0", "a", "a", [⟨"a", 0, none⟩], 0, 0, 0⟩ : EditSession).history
        (⟨"session_0", "a", "a", [⟨"a", 0, none⟩], 0, 0, 0⟩ : EditSession).historyIndex = some st ∧
      (⟨"session_0", "a", "a", [⟨"a", 0, none⟩], 0, 0, 0⟩ : EditSession).currentUri = st.uri :=
  editor_currentUri_sync [.start "a" 0]
    ⟨some ⟨"session_0", "a", "a", [⟨"a", 0, none⟩], 0, 0, 0⟩, false, "", none, none,
      false, false, []⟩
    ⟨"session_0", "a", "a", [⟨"a", 0, none⟩], 0, 0, 0⟩ rfl rfl

/-- C3: for an active session at cursor `c` with `c < length(history) - 1`,
`applyEdit` truncates the history to entries `0..c`, appends the new state,
leaves the length at `c + 2` and the cursor at `length - 1`, and every state in
the new history is either one of the kept entries `0..c` or the new state — the
previously reachable redo tail is gone. -/
theorem applyEdit_truncation (s : EditorState) (sess : EditSession) (uri : String)
    (tool : AITool) (now : Int) (hs : s.currentSession = some sess)
    (h0 : 0 ≤ sess.historyIndex)
    (h1 : sess.historyIndex < (sess.history.length : Int) - 1) :
    ∃ sess', (applyEdit s uri tool now).currentSession = some sess' ∧
      sess'.history = sess.history.take (sess.historyIndex.toNat + 1) ++ [⟨uri, now, some tool⟩] ∧
      (sess'.history.length : Int) = sess.historyIndex + 2 ∧
      sess'.historyIndex = sess.historyIndex + 1 ∧
      sess'.historyIndex = (sess'.history.length : Int) - 1 ∧
      ∀ st ∈ sess'.history, st ∈ sess.history.take (sess.historyIndex.toNat + 1) ∨
        st = ⟨uri, now, some tool⟩ := by
  obtain ⟨sess', hsess', hhist, hidx, hcur⟩ := applyEdit_session s sess uri tool now hs
  have hslice : jsSliceTo sess.history (sess.historyIndex + 1)
      = sess.history.take (sess.historyIndex.toNat + 1) := by
    unfold jsSliceTo
    rw [if_neg (by omega)]
    congr 1
    omega
  have hlist : sess'.history
      = sess.history.take (sess.historyIndex.toNat + 1) ++ [⟨uri, now, some tool⟩] := by
    rw [hhist, hslice]
  have htk : (sess.history.take (sess.historyIndex.toNat + 1)).length
      = sess.historyIndex.toNat + 1 := by
    rw [List.length_take, Nat.min_eq_left (by omega)]
  have hlen2 : (sess'.history.length : Int) = sess.historyIndex + 2 := by
    rw [hlist, List.length_append, htk]
    simp only [List.length_singleton]
    push_cast
    omega
  have hidx2 : sess'.historyIndex = sess.historyIndex + 1 := by
    rw [hidx, hlen2]
    ring
  refine ⟨sess', hsess', hlist, hlen2, hidx2, by rw [hidx2, hlen2]; ring, ?_⟩
  intro st hst
  rw [hlist] at hst
  rcases List.mem_append.mp hst with hmem | hmem
  · exact Or.inl hmem
  · exact Or.inr (by simpa using hmem)

/-- Witness for C3: a session holding three states at cursor 0. -/
theorem applyEdit_truncation_witness :
    ∃ sess', (applyEdit
        ⟨some ⟨"s", "a", "a", [⟨"a", 0, none⟩, ⟨"b", 1, some .autoEnhance⟩,
          ⟨"c", 2, some .smartCrop⟩], 0, 0, 0⟩, false, "", none, none, false, false, []⟩
        "d" .meet 5).currentSession = some sess' ∧
      sess'.history = ([⟨"a", 0, none⟩, ⟨"b", 1, some .autoEnhance⟩,
          ⟨"c", 2, some .smartCrop⟩] : List ImageState).take (((0 : Int)).toNat + 1)
          ++ [⟨"d", 5, some .meet⟩] ∧
      (sess'.history.length : Int) = (0 : Int) + 2 ∧
      sess'.historyIndex = (0 : Int) + 1 ∧
      sess'.historyIndex = (sess'.history.length : Int) - 1 ∧
      ∀ st ∈ sess'.history, st ∈ ([⟨"a", 0, none⟩, ⟨"b", 1, some .autoEnhance⟩,
          ⟨"c", 2, some .smartCrop⟩] : List ImageState).take (((0 : Int)).toNat + 1) ∨
        st = ⟨"d", 5, some .meet⟩ :=
  applyEdit_truncation
    ⟨some ⟨"s", "a", "a", [⟨"a", 0, none⟩, ⟨"b", 1, some .autoEnhance⟩,
      ⟨"c", 2, some .smartCrop⟩], 0, 0, 0⟩, false, "", none, none, false, false, []⟩
    ⟨"s", "a", "a", [⟨"a", 0, none⟩, ⟨"b", 1, some .autoEnhance⟩,
      ⟨"c", 2, some .smartCrop⟩], 0, 0, 0⟩
    "d" .meet 5 rfl (by decide) (by decide)

/-- C10: with no active session, applyEdit/undo/redo leave the whole editor
state unchanged (defined no-ops, never errors) and canUndo/canRedo are false. -/
theorem noSession_ops_noop (s : EditorState) (uri : String) (tool : AITool)
    (n1 n2 n3 : Int) (h : s.currentSession = none) :
    applyEdit s uri tool n1 = s ∧ undo s n2 = .ok s ∧ redo s n3 = .ok s ∧
      canUndo s = false ∧ canRedo s = false := by
  unfold applyEdit undo redo canUndo canRedo
  rw [h]
  exact ⟨rfl, rfl, rfl, rfl, rfl⟩

/-- Witness for C10 at the store's initial state. -/
theorem noSession_ops_noop_witness :
    applyEdit initialEditorState "b" .autoEnhance 1 = initialEditorState ∧
      undo initialEditorState 2 = .ok initialEditorState ∧
      redo initialEditorState 3 = .ok initialEditorState ∧
      canUndo initialEditorState = false ∧ canRedo initialEditorState = false :=
  noSession_ops_noop initialEditorState "b" .autoEnhance 1 2 3 rfl


lemma lookupEntry_eq_none (l : List (String × CacheEntry)) (key : String) :
    lookupEntry l key = none ↔ key ∉ l.map Prod.fst := by
  induction l with
  | nil => simp [lookupEntry]
  | cons p rest ih =>
    obtain ⟨k, e⟩ := p
    by_cases h : k == key
    · have hk : k = key := by simpa using h
      subst hk
      simp [lookupEntry, h]
    · have hk : key ≠ k := Ne.symm (by simpa using h)
      rw [show lookupEntry ((k, e) :: rest) key = lookupEntry rest key from by
        simp [lookupEntry, h]]
      rw [ih, List.map_cons]
      simp [List.mem_cons, hk]

lemma setEntry_of_lookup_none (l : List (String × CacheEntry)) (key : String)
    (e : CacheEntry) (h : lookupEntry l key = none) :
    setEntry l key e = l ++ [(key, e)] := by
  induction l with
  | nil => rfl
  | cons p rest ih =>
    obtain ⟨k, e'⟩ := p
    by_cases hk : k == key
    · simp [lookupEntry, hk] at h
    · have h' : lookupEntry rest key = none := by
        simpa [lookupEntry, hk] using h
      simp [setEntry, hk, ih h']

lemma setEntry_map_fst (l : List (String × CacheEntry)) (key : String)
    (e e' : CacheEntry) (h : lookupEntry l key = some e) :
    (setEntry l key e').map Prod.fst = l.map Prod.fst := by
  induction l with
  | nil => simp [lookupEntry] at h
  | cons p rest ih =>
    obtain ⟨k, e''⟩ := p
    by_cases hk : k == key
    · have hkk : k = key := by simpa using hk
      subst hkk
      simp [setEntry, hk]
    · have h' : lookupEntry rest key = some e := by
        simpa [lookupEntry, hk] using h
      simp [setEntry, hk, ih h']

lemma sizesSum_cons (p : String × CacheEntry) (l : List (String × CacheEntry)) :
    sizesSum (p :: l) = p.2.size + sizesSum l := by
  simp [sizesSum]

lemma sizesSum_append (l1 l2 : List (String × CacheEntry)) :
    sizesSum (l1 ++ l2) = sizesSum l1 + sizesSum l2 := by
  simp [sizesSum]

lemma sizesSum_perm {l1 l2 : List (String × CacheEntry)} (h : l1.Perm l2) :
    sizesSum l1 = sizesSum l2 := by
  unfold sizesSum
  exact (h.map (fun p => p.2.size)).sum_eq

lemma setEntry_sizesSum (l : List (String × CacheEntry)) (key : String)
    (e e2 : CacheEntry) (h : lookupEntry l key = some e) (hsz : e2.size = e.size) :
    sizesSum (setEntry l key e2) = sizesSum l := by
  induction l with
  | nil => simp [lookupEntry] at h
  | cons p rest ih =>
    obtain ⟨k, e''⟩ := p
    by_cases hk : k == key
    · have he : e'' = e := by
        have := h
        simp [lookupEntry, hk] at this
        exact this
      subst he
      simp [setEntry, hk, sizesSum_cons, hsz]
    · have h' : lookupEntry rest key = some e := by
        simpa [lookupEntry, hk] using h
      simp [setEntry, hk, sizesSum_cons, ih h']

lemma removeKey_sublist (l : List (String × CacheEntry)) (key : String) :
    (removeKey l key).Sublist l := by
  induction l with
  | nil => exact List.Sublist.refl []
  | cons p rest ih =>
    obtain ⟨k, e⟩ := p
    by_cases h : k == key
    · rw [show removeKey ((k, e) :: rest) key = removeKey rest key from by
        simp [removeKey, h]]
      exact ih.cons _
    · rw [show removeKey ((k, e) :: rest) key = (k, e) :: removeKey rest key from by
        simp [removeKey, h]]
      exact ih.cons₂ _

lemma keysNodup_removeKey (l : List (String × CacheEntry)) (key : String)
    (h : keysNodup l) : keysNodup (removeKey l key) :=
  ((removeKey_sublist l key).map Prod.fst).nodup h

lemma removeKey_of_not_mem (l : List (String × CacheEntry)) (key : String)
    (h : key ∉ l.map Prod.fst) : removeKey l key = l := by
  induction l with
  | nil => rfl
  | cons p rest ih =>
    obtain ⟨k, e⟩ := p
    have hk : ¬ (k == key) = true := by
      intro hkk
      exact h (by simp [show k = key from by simpa using hkk])
    have h' : key ∉ rest.map Prod.fst := fun hmem => h (by simp [hmem])
    simp [removeKey, hk, ih h']

lemma mem_removeKey (l : List (String × CacheEntry)) (key : String)
    (q : String × CacheEntry) :
    q ∈ removeKey l key ↔ q ∈ l ∧ ¬ q.1 = key := by
  induction l with
  | nil => simp [removeKey]
  | cons p rest ih =>
    obtain ⟨k, e⟩ := p
    by_cases h : k == key
    · have hk : k = key := by simpa using h
      subst hk
      rw [show removeKey ((k, e) :: rest) k = removeKey rest k from by
        simp [removeKey]]
      rw [ih]
      constructor
      · rintro ⟨hq, hne⟩
        exact ⟨List.mem_cons_of_mem _ hq, hne⟩
      · rintro ⟨hq, hne⟩
        rcases List.mem_cons.mp hq with rfl | hq
        · exact absurd rfl hne
        · exact ⟨hq, hne⟩
    · have hk : ¬ k = key := by simpa using h
      rw [show removeKey ((k, e) :: rest) key = (k, e) :: removeKey rest key from by
        simp [removeKey, h]]
      constructor
      · intro hq
        rcases List.mem_cons.mp hq with rfl | hq
        · exact ⟨List.mem_cons_self _ _, hk⟩
        · obtain ⟨h1, h2⟩ := ih.mp hq
          exact ⟨List.mem_cons_of_mem _ h1, h2⟩
      · rintro ⟨hq, hne⟩
        rcases List.mem_cons.mp hq with rfl | hq
        · exact List.mem_cons_self _ _
        · exact List.mem_cons_of_mem _ (ih.mpr ⟨hq, hne⟩)

lemma removeKey_sizesSum (l : List (String × CacheEntry)) (key : String)
    (e : CacheEntry) (hN : keysNodup l) (h : lookupEntry l key = some e) :
    sizesSum (removeKey l key) = sizesSum l - e.size := by
  induction l with
  | nil => simp [lookupEntry] at h
  | cons p rest ih =>
    obtain ⟨k, e'⟩ := p
    have hnc : k ∉ rest.map Prod.fst ∧ (rest.map Prod.fst).Nodup :=
      List.nodup_cons.mp hN
    have hN' : keysNodup rest := hnc.2
    by_cases hk : k == key
    · have hkk : k = key := by simpa using hk
      subst hkk
      have he : e' = e := by
        have := h
        simp [lookupEntry] at this
        exact this
      subst he
      rw [show removeKey ((k, e') :: rest) k = removeKey rest k from by
        simp [removeKey]]
      rw [removeKey_of_not_mem rest k hnc.1, sizesSum_cons]
      ring
    · have h' : lookupEntry rest key = some e := by
        simpa [lookupEntry, hk] using h
      rw [show removeKey ((k, e') :: rest) key = (k, e') :: removeKey rest key from by
        simp [removeKey, hk]]
      rw [sizesSum_cons, sizesSum_cons, ih hN' h']
      ring

lemma removeKey_length (l : List (String × CacheEntry)) (key : String)
    (e : CacheEntry) (hN : keysNodup l) (h : lookupEntry l key = some e) :
    (removeKey l key).length + 1 = l.length := by
  induction l with
  | nil => simp [lookupEntry] at h
  | cons p rest ih =>
    obtain ⟨k, e'⟩ := p
    have hnc : k ∉ rest.map Prod.fst ∧ (rest.map Prod.fst).Nodup :=
      List.nodup_cons.mp hN
    have hN' : keysNodup rest := hnc.2
    by_cases hk : k == key
    · have hkk : k = key := by simpa using hk
      subst hkk
      rw [show removeKey ((k, e') :: rest) k = removeKey rest k from by
        simp [removeKey]]
      rw [removeKey_of_not_mem rest k hnc.1]
      simp
    · have h' : lookupEntry rest key = some e := by
        simpa [lookupEntry, hk] using h
      rw [show removeKey ((k, e') :: rest) key = (k, e') :: removeKey rest key from by
        simp [removeKey, hk]]
      have hr := ih hN' h'
      simp only [List.length_cons]
      omega

lemma mem_insertByTs (p q : String × CacheEntry) (l : List (String × CacheEntry)) :
    q ∈ insertByTs p l ↔ q = p ∨ q ∈ l := by
  induction l with
  | nil => simp [insertByTs]
  | cons r rest ih =>
    by_cases h : p.2.timestamp ≤ r.2.timestamp
    · simp [insertByTs, h]
    · rw [insertByTs, if_neg h]
      simp only [List.mem_cons, ih]
      tauto

lemma insertByTs_perm (p : String × CacheEntry) (l : List (String × CacheEntry)) :
    (insertByTs p l).Perm (p :: l) := by
  induction l with
  | nil => exact List.Perm.refl _
  | cons r rest ih =>
    by_cases h : p.2.timestamp ≤ r.2.timestamp
    · rw [insertByTs, if_pos h]
    · rw [insertByTs, if_neg h]
      exact (ih.cons r).trans (List.Perm.swap p r rest)

lemma sortByTs_perm (l : List (String × CacheEntry)) : (sortByTs l).Perm l := by
  induction l with
  | nil => exact List.Perm.refl _
  | cons p rest ih =>
    rw [show sortByTs (p :: rest) = insertByTs p (sortByTs rest) from rfl]
    exact (insertByTs_perm p _).trans (ih.cons p)

lemma removeKey_eq_filter (l : List (String × CacheEntry)) (key : String) :
    removeKey l key = l.filter (fun p => p.1 != key) := by
  induction l with
  | nil => rfl
  | cons p rest ih =>
    obtain ⟨k, e⟩ := p
    by_cases h : k == key
    · rw [show removeKey ((k, e) :: rest) key = removeKey rest key from by
        simp [removeKey, h]]
      rw [ih, List.filter_cons,
        if_neg (by simp [show k = key from by simpa using h])]
    · rw [show removeKey ((k, e) :: rest) key = (k, e) :: removeKey rest key from by
        simp [removeKey, h]]
      rw [ih, List.filter_cons, if_pos (by simpa using h)]

/-- The comparison `a.timestamp - b.timestamp <= 0` underlying the eviction sort. -/
abbrev tsLE (p q : String × CacheEntry) : Prop := p.2.timestamp ≤ q.2.timestamp

lemma insertByTs_pairwise (p : String × CacheEntry) (l : List (String × CacheEntry))
    (h : l.Pairwise tsLE) : (insertByTs p l).Pairwise tsLE := by
  induction l with
  | nil => simp [insertByTs, tsLE]
  | cons q rest ih =>
    rcases List.pairwise_cons.mp h with ⟨hq, hrest⟩
    by_cases hle : p.2.timestamp ≤ q.2.timestamp
    · rw [insertByTs, if_pos hle]
      refine List.pairwise_cons.mpr ⟨?_, h⟩
      intro x hx
      rcases List.mem_cons.mp hx with rfl | hx
      · exact hle
      · exact le_trans hle (hq x hx)
    · rw [insertByTs, if_neg hle]
      refine List.pairwise_cons.mpr ⟨?_, ih hrest⟩
      intro x hx
      rcases (mem_insertByTs p x rest).mp hx with rfl | hx
      · exact le_of_not_le hle
      · exact hq x hx

lemma sortByTs_pairwise (l : List (String × CacheEntry)) :
    (sortByTs l).Pairwise tsLE := by
  induction l with
  | nil => simp [sortByTs]
  | cons p rest ih => exact insertByTs_pairwise p _ ih

lemma evictLoop_spec (l : List (String × CacheEntry)) : ∀ (s : CacheIndex),
    l.Perm s.entries → keysNodup l → sumOk s →
    ∃ n, (evictLoop l s).entries.Perm (l.drop n) ∧ sumOk (evictLoop l s) ∧
      ((evictLoop l s).totalSize ≤ EVICT_TARGET ∨ n = l.length) ∧
      (evictLoop l s).totalSize = s.totalSize - sizesSum (l.take n) ∧
      (∀ m, m < n → EVICT_TARGET < s.totalSize - sizesSum (l.take m)) := by
  induction l with
  | nil =>
    intro s hperm hnd hsum
    refine ⟨0, by simpa using hperm.symm, hsum, Or.inr rfl, ?_, ?_⟩
    · show s.totalSize = s.totalSize - sizesSum []
      simp [sizesSum]
    · intro m hm
      exact absurd hm (Nat.not_lt_zero m)
  | cons p rest ih =>
    intro s hperm hnd hsum
    obtain ⟨k, e⟩ := p
    have heq : evictLoop ((k, e) :: rest) s
        = if s.totalSize ≤ EVICT_TARGET then s
          else evictLoop rest ⟨removeKey s.entries k, s.totalSize - e.size⟩ := rfl
    by_cases hle : s.totalSize ≤ EVICT_TARGET
    · rw [heq, if_pos hle]
      refine ⟨0, by simpa using hperm.symm, hsum, Or.inl hle, ?_, ?_⟩
      · show s.totalSize = s.totalSize - sizesSum []
        simp [sizesSum]
      · intro m hm
        exact absurd hm (Nat.not_lt_zero m)
    · rw [heq, if_neg hle]
      have hnc : k ∉ rest.map Prod.fst ∧ (rest.map Prod.fst).Nodup :=
        List.nodup_cons.mp hnd
      have hperm2 : (removeKey s.entries k).Perm (removeKey ((k, e) :: rest) k) := by
        rw [removeKey_eq_filter, removeKey_eq_filter]
        exact hperm.symm.filter _
      have hkk : removeKey ((k, e) :: rest) k = rest := by
        rw [show removeKey ((k, e) :: rest) k = removeKey rest k from by
          simp [removeKey]]
        exact removeKey_of_not_mem rest k hnc.1
      rw [hkk] at hperm2
      have hperm' : rest.Perm (removeKey s.entries k) := hperm2.symm
      have hsum' : sumOk ⟨removeKey s.entries k, s.totalSize - e.size⟩ := by
        show s.totalSize - e.size = sizesSum (removeKey s.entries k)
        have hs1 : sizesSum (removeKey s.entries k) = sizesSum rest :=
          sizesSum_perm hperm'.symm
        have hs2 : sizesSum s.entries = sizesSum ((k, e) :: rest) :=
          sizesSum_perm hperm.symm
        rw [hs1, hsum, hs2, sizesSum_cons]
        ring
      obtain ⟨n, hp, hs, hd, heq2, hmin⟩ :=
        ih ⟨removeKey s.entries k, s.totalSize - e.size⟩ hperm' hnc.2 hsum'
      have heq2' : (evictLoop rest ⟨removeKey s.entries k, s.totalSize - e.size⟩).totalSize
          = (s.totalSize - e.size) - sizesSum (rest.take n) := heq2
      refine ⟨n + 1, by simpa using hp, hs, ?_, ?_, ?_⟩
      · rcases hd with hd | hd
        · exact Or.inl hd
        · right
          simp [hd]
      · rw [List.take_succ_cons, sizesSum_cons, heq2']
        show (s.totalSize - e.size) - sizesSum (rest.take n)
          = s.totalSize - (e.size + sizesSum (rest.take n))
        ring
      · intro m hm
        cases m with
        | zero =>
          have h0 : sizesSum (((k, e) :: rest).take 0) = 0 := rfl
          omega
        | succ m' =>
          have hm' : EVICT_TARGET < (s.totalSize - e.size) - sizesSum (rest.take m') :=
            hmin m' (by omega)
          rw [List.take_succ_cons, sizesSum_cons]
          show EVICT_TARGET < s.totalSize - (e.size + sizesSum (rest.take m'))
          omega

lemma keysNodup_perm {l1 l2 : List (String × CacheEntry)} (h : l1.Perm l2)
    (hnd : keysNodup l1) : keysNodup l2 :=
  ((h.map Prod.fst).nodup_iff).mp hnd

lemma evict_inv (i : CacheIndex) (h : cacheInv i) : cacheInv (evictIfNeeded i).1 := by
  by_cases hle : i.totalSize ≤ MAX_CACHE_SIZE
  · simpa [evictIfNeeded, hle] using h
  · obtain ⟨hsum, hnd⟩ := h
    have hperm0 := sortByTs_perm i.entries
    have hnd' : keysNodup (sortByTs i.entries) := keysNodup_perm hperm0.symm hnd
    obtain ⟨n, hp, hs, _⟩ := evictLoop_spec _ i hperm0 hnd' hsum
    constructor
    · simpa [evictIfNeeded, hle] using hs
    · show keysNodup (evictIfNeeded i).1.entries
      have h1 : keysNodup ((sortByTs i.entries).drop n) :=
        ((List.drop_sublist n _).map Prod.fst).nodup hnd'
      have h2 := keysNodup_perm hp.symm h1
      simpa [evictIfNeeded, hle] using h2

lemma sizesSum_filter_split (l : List (String × CacheEntry))
    (p : String × CacheEntry → Bool) :
    sizesSum (l.filter p) + sizesSum (l.filter (fun x => !(p x))) = sizesSum l := by
  induction l with
  | nil => simp [sizesSum]
  | cons q rest ih =>
    by_cases h : p q
    · rw [List.filter_cons, if_pos h, List.filter_cons,
        if_neg (by simp [h]), sizesSum_cons, sizesSum_cons]
      omega
    · rw [List.filter_cons, if_neg h, List.filter_cons,
        if_pos (by simpa using h), sizesSum_cons, sizesSum_cons]
      omega

lemma cleanup_inv (now : Int) (s : CacheIndex) (h : cacheInv s) :
    cacheInv (cleanupExpired now s) := by
  obtain ⟨hsum, hnd⟩ := h
  constructor
  · show (cleanupExpired now s).totalSize = sizesSum (cleanupExpired now s).entries
    have hsplit := sizesSum_filter_split s.entries
      (fun p => decide (MAX_CACHE_AGE < now - p.2.timestamp))
    show s.totalSize
        - sizesSum (s.entries.filter (fun p => decide (MAX_CACHE_AGE < now - p.2.timestamp)))
      = sizesSum (s.entries.filter (fun p => !(decide (MAX_CACHE_AGE < now - p.2.timestamp))))
    omega
  · show keysNodup (cleanupExpired now s).entries
    exact ((List.filter_sublist s.entries).map Prod.fst).nodup hnd

lemma emptyIndex_inv : cacheInv emptyIndex := ⟨rfl, List.nodup_nil⟩

lemma initResult_inv (content : IndexFile) (now : Int)
    (h : contentOk content = true) : cacheInv (initResult content now) := by
  match content with
  | none =>
    show cacheInv (cleanupExpired now emptyIndex)
    exact cleanup_inv now emptyIndex emptyIndex_inv
  | some none => exact emptyIndex_inv
  | some (some idx) =>
    show cacheInv (cleanupExpired now idx)
    have hok : sumOk idx ∧ keysNodup idx.entries := by simpa [contentOk] using h
    exact cleanup_inv now idx hok

lemma ensureInit_inv (s : CacheState) (content : IndexFile) (now : Int)
    (h : cacheInv s.index) (hc : contentOk content = true) :
    cacheInv (ensureInit s content now).index := by
  unfold ensureInit
  by_cases hi : s.initialized
  · simpa [hi] using h
  · simpa [hi] using initResult_inv content now hc

lemma cacheImage_inv (s : CacheIndex) (key destUri : String)
    (copyResult : CopyResult) (now : Int) (h : cacheInv s)
    (hfresh : lookupEntry s.entries key = none) :
    cacheInv (cacheImage s key destUri copyResult now).2 := by
  obtain ⟨hsum, hnd⟩ := h
  match copyResult with
  | none => exact ⟨hsum, hnd⟩
  | some info =>
    show cacheInv (evictIfNeeded
      ⟨setEntry s.entries key ⟨destUri, now, info.getD 0⟩, s.totalSize + info.getD 0⟩).1
    apply evict_inv
    have happ := setEntry_of_lookup_none s.entries key ⟨destUri, now, info.getD 0⟩ hfresh
    constructor
    · show s.totalSize + info.getD 0
        = sizesSum (setEntry s.entries key ⟨destUri, now, info.getD 0⟩)
      rw [happ, sizesSum_append, hsum, sizesSum_cons]
      simp [sizesSum]
    · show keysNodup (setEntry s.entries key ⟨destUri, now, info.getD 0⟩)
      rw [happ]
      have hnm : key ∉ s.entries.map Prod.fst :=
        (lookupEntry_eq_none s.entries key).mp hfresh
      show (List.map Prod.fst
        (s.entries ++ [(key, (⟨destUri, now, info.getD 0⟩ : CacheEntry))])).Nodup
      rw [List.map_append, List.nodup_append]
      refine ⟨hnd, List.nodup_singleton _, ?_⟩
      intro a ha hb
      have hak : a = key := by simpa using hb
      subst hak
      exact hnm ha

lemma getCached_inv (s : CacheIndex) (key : String) (fileExists : Bool) (now : Int)
    (h : cacheInv s) : cacheInv (getCached s key fileExists now).2.1 := by
  obtain ⟨hsum, hnd⟩ := h
  unfold getCached
  cases hlook : lookupEntry s.entries key with
  | none => exact ⟨hsum, hnd⟩
  | some e =>
    cases fileExists with
    | true =>
      refine ⟨?_, ?_⟩
      · show s.totalSize = sizesSum (setEntry s.entries key ⟨e.uri, now, e.size⟩)
        rw [setEntry_sizesSum s.entries key e ⟨e.uri, now, e.size⟩ hlook rfl]
        exact hsum
      · show keysNodup (setEntry s.entries key ⟨e.uri, now, e.size⟩)
        show (List.map Prod.fst (setEntry s.entries key ⟨e.uri, now, e.size⟩)).Nodup
        rw [setEntry_map_fst s.entries key e ⟨e.uri, now, e.size⟩ hlook]
        exact hnd
    | false =>
      refine ⟨?_, keysNodup_removeKey s.entries key hnd⟩
      show s.totalSize - e.size = sizesSum (removeKey s.entries key)
      rw [removeKey_sizesSum s.entries key e hnd hlook, hsum]

lemma mem_lookupEntry (l : List (String × CacheEntry)) (k : String) (e : CacheEntry)
    (hnd : keysNodup l) (hmem : (k, e) ∈ l) : lookupEntry l k = some e := by
  induction l with
  | nil => cases hmem
  | cons p rest ih =>
    obtain ⟨k', e'⟩ := p
    have hnc : k' ∉ rest.map Prod.fst ∧ (rest.map Prod.fst).Nodup :=
      List.nodup_cons.mp hnd
    rcases List.mem_cons.mp hmem with heq | hmem'
    · injection heq with h1 h2
      subst h1; subst h2
      simp [lookupEntry]
    · by_cases hk : k' == k
      · exfalso
        have : k' = k := by simpa using hk
        subst this
        exact hnc.1 (List.mem_map.mpr ⟨(k', e), hmem', rfl⟩)
      · rw [show lookupEntry ((k', e') :: rest) k = lookupEntry rest k from by
          simp [lookupEntry, hk]]
        exact ih hnc.2 hmem'

lemma deleteOp_inv (s : CacheIndex) (fs : List String) (uri : String)
    (h : cacheInv s) : cacheInv (deleteOp s fs uri).1 := by
  obtain ⟨hsum, hnd⟩ := h
  unfold deleteOp
  cases hfind : s.entries.find? (fun p => p.2.uri == uri) with
  | none => exact ⟨hsum, hnd⟩
  | some p =>
    obtain ⟨k, e⟩ := p
    have hmem : (k, e) ∈ s.entries := List.mem_of_find?_eq_some hfind
    have hlook : lookupEntry s.entries k = some e := mem_lookupEntry _ _ _ hnd hmem
    refine ⟨?_, keysNodup_removeKey s.entries k hnd⟩
    show s.totalSize - e.size = sizesSum (removeKey s.entries k)
    rw [removeKey_sizesSum s.entries k e hnd hlook, hsum]

lemma runOp_inv (s : CacheState) (op : CacheOp) (h : cacheInv s.index)
    (hop : goodOp s op = true) : cacheInv (runOp s op).index := by
  cases op with
  | initOp content now =>
    exact ensureInit_inv s content now h (by simpa [goodOp] using hop)
  | cacheOp content key destUri copyResult now =>
    have hops : contentOk content = true ∧
        lookupEntry (ensureInit s content now).index.entries key = none := by
      simpa [goodOp] using hop
    have h1 := ensureInit_inv s content now h hops.1
    have hfresh := hops.2
    exact cacheImage_inv _ key destUri copyResult now h1 hfresh
  | getOp content key fileExists now =>
    have h1 := ensureInit_inv s content now h (by simpa [goodOp] using hop)
    exact getCached_inv _ key fileExists now h1
  | delOp uri => exact deleteOp_inv s.index [] uri h
  | clearOp => exact emptyIndex_inv
  | evictOp => exact evict_inv s.index h
  | cleanupOp now => exact cleanup_inv now s.index h

lemma runOps_inv (ops : List CacheOp) : ∀ (s : CacheState), cacheInv s.index →
    goodTrace s ops = true → cacheInv (runOps s ops).index := by
  induction ops with
  | nil => intro s h _; exact h
  | cons op rest ih =>
    intro s h htr
    rw [show goodTrace s (op :: rest)
        = (goodOp s op && goodTrace (runOp s op) rest) from rfl] at htr
    have hsplit := Bool.and_eq_true_iff.mp htr
    have h1 := runOp_inv s op h hsplit.1
    exact ih (runOp s op) h1 hsplit.2

lemma goodTrace_append (l1 l2 : List CacheOp) : ∀ (s : CacheState),
    goodTrace s (l1 ++ l2) = true → goodTrace s l1 = true := by
  induction l1 with
  | nil => intro s _; rfl
  | cons op rest ih =>
    intro s h
    rw [List.cons_append] at h
    rw [show goodTrace s (op :: (rest ++ l2))
        = (goodOp s op && goodTrace (runOp s op) (rest ++ l2)) from rfl] at h
    rw [show goodTrace s (op :: rest)
        = (goodOp s op && goodTrace (runOp s op) rest) from rfl]
    rw [Bool.and_eq_true_iff] at h ⊢
    exact ⟨h.1, ih (runOp s op) h.2⟩

/-- C1 (amended): starting from the uninitialized store, for every operation
sequence in which any loaded index file is well-formed and every `cacheImage`
call uses a key not already bound (no key collision — the source's
`generateKey` does not rule collisions out, see the counterexample), the index
satisfies `totalSize = sum of entry sizes` after every operation, i.e. after
every prefix of the sequence. -/
theorem cache_sum_invariant (ops : List CacheOp)
    (h : goodTrace initialCacheState ops = true) (n : Nat) :
    sumOk (runOps initialCacheState (ops.take n)).index := by
  have hpre : goodTrace initialCacheState (ops.take n) = true := by
    refine goodTrace_append (ops.take n) (ops.drop n) initialCacheState ?_
    rw [List.take_append_drop]
    exact h
  exact (runOps_inv (ops.take n) initialCacheState ⟨rfl, List.nodup_nil⟩ hpre).1

/-- Witness for C1: initialize with no index file, then cache one 5-byte image. -/
theorem cache_sum_invariant_witness :
    sumOk (runOps initialCacheState
      (([CacheOp.initOp none 0,
         CacheOp.cacheOp none "k" "u.jpg" (some (some 5)) 0]).take 2)).index :=
  cache_sum_invariant
    [CacheOp.initOp none 0, CacheOp.cacheOp none "k" "u.jpg" (some (some 5)) 0]
    (by decide) 2

/-- Counterexample to C1 as stated: two `cacheImage` calls in the same
millisecond with the same source-name fragment and operation tag generate the
same key; the second silently overwrites the entry while still adding its full
size, so `totalSize` (12) no longer equals the sum of entry sizes (7). -/
theorem cache_sum_invariant_counterexample :
    ¬ sumOk (runOps initialCacheState
      [CacheOp.initOp none 0,
       CacheOp.cacheOp none "k" "u.jpg" (some (some 5)) 0,
       CacheOp.cacheOp none "k" "u.jpg" (some (some 7)) 0]).index := by
  decide

/-- C6: when the underlying file copy fails, `cacheImage` fails with the
storage error and the index is left unmodified — no entry is added and
`totalSize` is unchanged. -/
theorem cacheImage_copy_failure (s : CacheIndex) (key destUri : String) (now : Int) :
    (cacheImage s key destUri none now).1 = .error "Failed to cache image" ∧
      (cacheImage s key destUri none now).2 = s :=
  ⟨rfl, rfl⟩

/-- C7: `initialize()` never propagates a parse error: it always succeeds; when
the index file is absent or unparseable the store starts from the empty index
(zero entries, zero total size — for an absent file this is the cleanup of the
empty in-memory index), and when the file parses, the loaded index is cleaned
of expired entries. -/
theorem initStore_recovers (content : IndexFile) (now : Int) :
    (initStore content now).isOk = true ∧
      (content = none → initStore content now = .ok emptyIndex) ∧
      (content = some none → initStore content now = .ok emptyIndex) ∧
      (∀ idx, content = some (some idx) →
        initStore content now = .ok (cleanupExpired now idx)) := by
  rcases content with _ | c
  · refine ⟨rfl, fun _ => ?_, ?_, ?_⟩
    · show Except.ok (cleanupExpired now emptyIndex) = Except.ok emptyIndex
      rfl
    · intro hc
      exact Option.noConfusion hc
    · intro idx hc
      exact Option.noConfusion hc
  · rcases c with _ | idx
    · refine ⟨rfl, ?_, fun _ => rfl, ?_⟩
      · intro hc
        exact Option.noConfusion hc
      · intro idx hc
        injection hc with hc
        exact Option.noConfusion hc
    · refine ⟨rfl, ?_, ?_, ?_⟩
      · intro hc
        exact Option.noConfusion hc
      · intro hc
        injection hc with hc
        exact Option.noConfusion hc
      · intro idx' hc
        injection hc with hc
        injection hc with hc
        subst hc
        rfl

/-- Witness for C7 at an unparseable index file. -/
theorem initStore_recovers_witness : initStore (some none) 0 = .ok emptyIndex :=
  (initStore_recovers (some none) 0).2.2.1 rfl

/-- C8: for a key bound in the index, `getCached` with the backing file gone
returns absent, removes the entry, subtracts its size, persists, and the entry
count drops by one; with the backing file present it refreshes the entry's
timestamp, persists, and returns the stored location with `totalSize`
untouched. -/
theorem getCached_spec (s : CacheIndex) (key : String) (e : CacheEntry) (now : Int)
    (hN : keysNodup s.entries) (hE : lookupEntry s.entries key = some e) :
    (getCached s key false now
        = (none, ⟨removeKey s.entries key, s.totalSize - e.size⟩, true) ∧
      (getStats (getCached s key false now).2.1).1 + 1 = (getStats s).1) ∧
    getCached s key true now
      = (some e.uri, ⟨setEntry s.entries key ⟨e.uri, now, e.size⟩, s.totalSize⟩, true) := by
  have h1 : getCached s key false now
      = (none, ⟨removeKey s.entries key, s.totalSize - e.size⟩, true) := by
    unfold getCached
    rw [hE]
    rfl
  have h2 : getCached s key true now
      = (some e.uri, ⟨setEntry s.entries key ⟨e.uri, now, e.size⟩, s.totalSize⟩, true) := by
    unfold getCached
    rw [hE]
    rfl
  refine ⟨⟨h1, ?_⟩, h2⟩
  rw [h1]
  show (removeKey s.entries key).length + 1 = s.entries.length
  exact removeKey_length s.entries key e hN hE

/-- Witness for C8 on a one-entry index. -/
theorem getCached_spec_witness :
    (getCached ⟨[("k", ⟨"u", 3, 5⟩)], 5⟩ "k" false 9
        = (none, ⟨removeKey [("k", ⟨"u", 3, 5⟩)] "k", (5 : Int) - 5⟩, true) ∧
      (getStats (getCached ⟨[("k", ⟨"u", 3, 5⟩)], 5⟩ "k" false 9).2.1).1 + 1
        = (getStats ⟨[("k", ⟨"u", 3, 5⟩)], 5⟩).1) ∧
    getCached ⟨[("k", ⟨"u", 3, 5⟩)], 5⟩ "k" true 9
      = (some "u", ⟨setEntry [("k", ⟨"u", 3, 5⟩)] "k" ⟨"u", 9, 5⟩, 5⟩, true) :=
  getCached_spec ⟨[("k", ⟨"u", 3, 5⟩)], 5⟩ "k" ⟨"u", 3, 5⟩ 9 (by decide) (by decide)

/-- C4 (amended): `evictIfNeeded` does nothing — not even a persist — when
`totalSize <= MAX_CACHE_SIZE`; when `totalSize` exceeds the cap it persists
exactly once after the loop, and — on any index satisfying the store's own
structural invariant (sum-consistent, distinct keys; the counterexample shows
the inconsistent states reachable through key collisions escape this) — it
evicts exactly a prefix of the timestamp-sorted entry list: oldest-first by
last-access timestamp, ties kept in first-encountered order by the stable
sort. The prefix is pinned down on both sides: afterwards `totalSize` — which
equals the old total minus the evicted sizes — is at most
`MAX_CACHE_SIZE * 0.8`, and the loop stopped as soon as that held: before each
of the `n` removals the running total was still above the target, so no entry
is evicted once `totalSize <= 0.8 * max` is reached. -/
theorem evictIfNeeded_spec (s : CacheIndex) :
    (s.totalSize ≤ MAX_CACHE_SIZE → evictIfNeeded s = (s, 0)) ∧
    (MAX_CACHE_SIZE < s.totalSize → cacheInv s →
      (evictIfNeeded s).2 = 1 ∧
      (evictIfNeeded s).1.totalSize ≤ EVICT_TARGET ∧
      ∃ n, (evictIfNeeded s).1.entries.Perm ((sortByTs s.entries).drop n) ∧
        (∀ p ∈ (sortByTs s.entries).take n, ∀ q ∈ (evictIfNeeded s).1.entries,
          p.2.timestamp ≤ q.2.timestamp) ∧
        (evictIfNeeded s).1.totalSize
          = s.totalSize - sizesSum ((sortByTs s.entries).take n) ∧
        (∀ m, m < n →
          EVICT_TARGET < s.totalSize - sizesSum ((sortByTs s.entries).take m))) := by
  constructor
  · intro h
    simp [evictIfNeeded, h]
  · intro h hinv
    obtain ⟨hsum, hnd⟩ := hinv
    have hneg : ¬ s.totalSize ≤ MAX_CACHE_SIZE := by omega
    have hperm0 : (sortByTs s.entries).Perm s.entries := sortByTs_perm _
    have hnd' : keysNodup (sortByTs s.entries) := keysNodup_perm hperm0.symm hnd
    obtain ⟨n, hp, hs, hd, heq2, hmin⟩ :=
      evictLoop_spec (sortByTs s.entries) s hperm0 hnd' hsum
    have hfin : (evictLoop (sortByTs s.entries) s).totalSize ≤ EVICT_TARGET := by
      rcases hd with hd | hd
      · exact hd
      · have hdrop : (sortByTs s.entries).drop n = [] := by
          rw [hd]
          exact List.drop_length _
        rw [hdrop] at hp
        have hnil : (evictLoop (sortByTs s.entries) s).entries = [] := hp.eq_nil
        have h0 : (evictLoop (sortByTs s.entries) s).totalSize = 0 := by
          rw [hs, hnil]
          rfl
        rw [h0]
        decide
    have hev1 : (evictIfNeeded s).1 = evictLoop (sortByTs s.entries) s := by
      simp [evictIfNeeded, hneg]
    refine ⟨by simp [evictIfNeeded, hneg], by rw [hev1]; exact hfin,
      n, ?_, ?_, ?_, ?_⟩
    · rw [hev1]
      exact hp
    · intro p hpmem q hqmem
      have hpw := sortByTs_pairwise s.entries
      rw [← List.take_append_drop n (sortByTs s.entries)] at hpw
      rw [List.pairwise_append] at hpw
      have hq' : q ∈ (sortByTs s.entries).drop n := by
        rw [hev1] at hqmem
        exact hp.mem_iff.mp hqmem
      exact hpw.2.2 p hpmem q hq'
    · rw [hev1]
      exact heq2
    · exact hmin

/-- Witness for C4: two 60 MiB entries (120 MiB total) exceed the 100 MiB cap;
eviction persists once, ends at or under the 80 MiB target having removed the
oldest prefix of the sorted entries, and removed nothing once under it. -/
theorem evictIfNeeded_spec_witness :
    (evictIfNeeded ⟨[("a", ⟨"u1", 0, 62914560⟩), ("b", ⟨"u2", 1, 62914560⟩)],
        125829120⟩).2 = 1 ∧
      (evictIfNeeded ⟨[("a", ⟨"u1", 0, 62914560⟩), ("b", ⟨"u2", 1, 62914560⟩)],
        125829120⟩).1.totalSize ≤ EVICT_TARGET ∧
      ∃ n, (evictIfNeeded ⟨[("a", ⟨"u1", 0, 62914560⟩), ("b", ⟨"u2", 1, 62914560⟩)],
            125829120⟩).1.entries.Perm
          ((sortByTs [("a", ⟨"u1", 0, 62914560⟩), ("b", ⟨"u2", 1, 62914560⟩)]).drop n) ∧
        (∀ p ∈ (sortByTs [("a", ⟨"u1", 0, 62914560⟩), ("b", ⟨"u2", 1, 62914560⟩)]).take n,
          ∀ q ∈ (evictIfNeeded ⟨[("a", ⟨"u1", 0, 62914560⟩), ("b", ⟨"u2", 1, 62914560⟩)],
            125829120⟩).1.entries, p.2.timestamp ≤ q.2.timestamp) ∧
        (evictIfNeeded ⟨[("a", ⟨"u1", 0, 62914560⟩), ("b", ⟨"u2", 1, 62914560⟩)],
            125829120⟩).1.totalSize
          = 125829120 - sizesSum
            ((sortByTs [("a", ⟨"u1", 0, 62914560⟩), ("b", ⟨"u2", 1, 62914560⟩)]).take n) ∧
        (∀ m, m < n → EVICT_TARGET < 125829120 - sizesSum
          ((sortByTs [("a", ⟨"u1", 0, 62914560⟩), ("b", ⟨"u2", 1, 62914560⟩)]).take m)) :=
  (evictIfNeeded_spec ⟨[("a", ⟨"u1", 0, 62914560⟩), ("b", ⟨"u2", 1, 62914560⟩)],
    125829120⟩).2 (by decide) (by decide)

/-- Counterexample to C4 as stated: on an inconsistent state — reachable via
the key collision of the C1 counterexample — `evictIfNeeded` exhausts the
entries and ends with `totalSize` (120 MiB) still above `0.8 * max` (80 MiB),
even though `totalSize` exceeded the cap. -/
theorem evictIfNeeded_counterexample :
    MAX_CACHE_SIZE < (⟨[("k", ⟨"u", 0, 62914560⟩)], 188743680⟩ : CacheIndex).totalSize ∧
      EVICT_TARGET < (evictIfNeeded ⟨[("k", ⟨"u", 0, 62914560⟩)], 188743680⟩).1.totalSize := by
  decide

lemma mem_eq_of_length_le_one {α : Type} {l : List α} (h : l.length ≤ 1) {a b : α}
    (ha : a ∈ l) (hb : b ∈ l) : a = b := by
  match l with
  | [] => cases ha
  | [x] =>
    rw [List.mem_singleton] at ha hb
    rw [ha, hb]
  | x :: y :: rest => simp at h

lemma filter_ne_idem (fs : List String) (uri : String) :
    (fs.filter (fun u => u != uri)).filter (fun u => u != uri)
      = fs.filter (fun u => u != uri) := by
  induction fs with
  | nil => rfl
  | cons x rest ih =>
    by_cases h : x == uri
    · rw [List.filter_cons, if_neg (by simpa using h), ih]
    · rw [List.filter_cons, if_pos (by simpa using h),
        List.filter_cons, if_pos (by simpa using h), ih]

/-- C9 (amended): `delete(ref)` is idempotent — two calls in a row give the
same index, `totalSize`, and file system as one call, the second being a
defined no-op — on every state in which at most one index entry records `ref`
as its uri. Every state the store builds itself is of this shape (each
destination uri embeds its own key); the counterexample shows a persisted index
with two entries sharing one uri escapes it. -/
theorem delete_idempotent (s : CacheIndex) (fs : List String) (uri : String)
    (hU : (s.entries.filter (fun p => p.2.uri == uri)).length ≤ 1) :
    deleteOp (deleteOp s fs uri).1 (deleteOp s fs uri).2 uri = deleteOp s fs uri := by
  cases hfind : s.entries.find? (fun p => p.2.uri == uri) with
  | none =>
    have h1 : deleteOp s fs uri = (s, fs.filter (fun u => u != uri)) := by
      unfold deleteOp
      rw [hfind]
    rw [h1]
    unfold deleteOp
    rw [hfind, filter_ne_idem]
  | some p =>
    obtain ⟨k, e⟩ := p
    have h1 : deleteOp s fs uri
        = (⟨removeKey s.entries k, s.totalSize - e.size⟩,
           fs.filter (fun u => u != uri)) := by
      unfold deleteOp
      rw [hfind]
    have hmem : (k, e) ∈ s.entries := List.mem_of_find?_eq_some hfind
    have hpe := List.find?_some hfind
    have hnone : (removeKey s.entries k).find? (fun p => p.2.uri == uri) = none := by
      rw [List.find?_eq_none]
      intro q hq hqe
      obtain ⟨hq1, hq2⟩ := (mem_removeKey s.entries k q).mp hq
      have hqk : q = (k, e) := mem_eq_of_length_le_one hU
        (List.mem_filter.mpr ⟨hq1, hqe⟩) (List.mem_filter.mpr ⟨hmem, hpe⟩)
      rw [hqk] at hq2
      exact hq2 rfl
    rw [h1]
    unfold deleteOp
    rw [hnone, filter_ne_idem]

/-- Witness for C9's amended statement on a one-entry index. -/
theorem delete_idempotent_witness :
    deleteOp (deleteOp ⟨[("k", ⟨"x", 0, 5⟩)], 5⟩ ["x", "y"] "x").1
        (deleteOp ⟨[("k", ⟨"x", 0, 5⟩)], 5⟩ ["x", "y"] "x").2 "x"
      = deleteOp ⟨[("k", ⟨"x", 0, 5⟩)], 5⟩ ["x", "y"] "x" :=
  delete_idempotent ⟨[("k", ⟨"x", 0, 5⟩)], 5⟩ ["x", "y"] "x" (by decide)

/-- Counterexample to C9 as stated over every store state: with two index
entries recording the same uri (expressible in the persisted index format),
each `delete` call removes only the first match, so the second call changes
the state again. -/
theorem delete_idempotent_counterexample :
    deleteOp (deleteOp ⟨[("k1", ⟨"x", 0, 5⟩), ("k2", ⟨"x", 0, 7⟩)], 12⟩ ["x"] "x").1
        (deleteOp ⟨[("k1", ⟨"x", 0, 5⟩), ("k2", ⟨"x", 0, 7⟩)], 12⟩ ["x"] "x").2 "x"
      ≠ deleteOp ⟨[("k1", ⟨"x", 0, 5⟩), ("k2", ⟨"x", 0, 7⟩)], 12⟩ ["x"] "x" := by
  decide
